import Mathlib

/-!
Verification development for the Oxide image recoloring engine.

The development shallowly embeds the palette and palettization code of the
repository (src/src/processor/pallet.rs, src/src/processor/tooling.rs,
src/src/processor/compute.rs and their callers in src/src/processor.rs).

Modelling conventions:
- A `u8` channel is a `Fin 256`; `f32`/`f64` arithmetic is modelled by exact
  rational arithmetic (`ℚ`).
- The source distance function in pallet.rs ends in a square root and is only
  ever consumed through strict comparisons of its results.  The square root is
  strictly monotone on nonnegative reals (theorem `sqrt_lt_sqrt_iff_radicand`
  below), so the embedding keeps the radicand (the sum of squares) and performs
  every comparison on radicands, which decides exactly the same comparisons.
  The tooling.rs score function has no square root in the source and is
  embedded as written.
- Rust casts `as u8` saturate; `clampU8` models that.  `f64::round` rounds
  half away from zero, which on the nonnegative values arising here equals
  `⌊q + 1/2⌋` (`roundQ`).
- Functions that the source runs in parallel via rayon indexed combinators
  (`into_par_iter` with order-preserving `collect`) are embedded as the pure
  functions they compute; the progress-callback side channel of
  `tooling::pallet::palletize` does not influence the produced pixels and is
  omitted.
-/

namespace Oxide

/-- An 8-bit RGB color, mirroring `image::Rgb<u8>` as used throughout the source. -/
structure Rgb where
  r : Fin 256
  g : Fin 256
  b : Fin 256
  deriving DecidableEq, Repr

/-- Red channel as a rational, modelling `color[0] as f32`. -/
def Rgb.rq (c : Rgb) : ℚ := (c.r.val : ℚ)

/-- Green channel as a rational, modelling `color[1] as f32`. -/
def Rgb.gq (c : Rgb) : ℚ := (c.g.val : ℚ)

/-- Blue channel as a rational, modelling `color[2] as f32`. -/
def Rgb.bq (c : Rgb) : ℚ := (c.b.val : ℚ)

/-- Saturating cast of an integer into a `u8` channel, modelling Rust `as u8`
on an integral value. -/
def clampU8 (z : ℤ) : Fin 256 :=
  if h1 : z < 0 then ⟨0, by omega⟩
  else if h2 : (255 : ℤ) < z then ⟨255, by omega⟩
  else ⟨z.toNat, by omega⟩

/-- Rounding half away from zero, as `f64::round`/`f32::round` do; on the
nonnegative inputs arising in this development it is `⌊q + 1/2⌋`. -/
def roundQ (q : ℚ) : ℤ := ⌊q + 1 / 2⌋

/-- Builds a color from three rational channel values by rounding and then
saturating, modelling `Rgb([a.round() as u8, b.round() as u8, c.round() as u8])`. -/
def rgbOfQ (a b c : ℚ) : Rgb :=
  ⟨clampU8 (roundQ a), clampU8 (roundQ b), clampU8 (roundQ c)⟩

/-- Removes duplicates keeping the first occurrence of each element, the
behavior of `remove_duplicates_ordered` in pallet.rs (a `HashSet` insert-filter
over the list in order). -/
def remove_duplicates_ordered : List Rgb → List Rgb
  | [] => []
  | x :: xs => x :: (remove_duplicates_ordered xs).filter (fun y => y ≠ x)

/-- The value accumulator loop shared by the nearest-color searches: scan the
list, keeping the best (distance, color) pair seen so far and replacing it on a
strictly smaller distance.  This is the `for` loop of `get_closest_color` and
of both halves of `get_closest_color_biased` in pallet.rs. -/
def closest_loop (f : Rgb → ℚ) (cd : ℚ) (cc : Rgb) : List Rgb → ℚ × Rgb
  | [] => (cd, cc)
  | pc :: rest =>
    if f pc < cd then closest_loop f (f pc) pc rest
    else closest_loop f cd cc rest

/-- The index accumulator loop: same scan as `closest_loop` but tracking the
position of the best candidate inside a larger indexed palette, with `i` the
index of the head of the remaining list.  Used to model the GPU kernels, which
write back palette indices. -/
def closest_idx_loop (f : Rgb → ℚ) : ℕ → ℚ → ℕ → List Rgb → ℚ × ℕ
  | _, cd, bi, [] => (cd, bi)
  | i, cd, bi, pc :: rest =>
    if f pc < cd then closest_idx_loop f (i + 1) (f pc) i rest
    else closest_idx_loop f (i + 1) cd bi rest

/-- Looks every index of the list up through `L`, failing if any lookup fails;
models a sequence of Rust index expressions each of which panics when out of
range. -/
def lookupAll (L : ℕ → Option Rgb) : List ℕ → Option (List Rgb)
  | [] => some []
  | i :: rest =>
    match L i, lookupAll L rest with
    | some c, some cs => some (c :: cs)
    | _, _ => none

/-- Splits a list into consecutive chunks of size `n` (last chunk possibly
shorter), the behavior of `slice::chunks(n)` for `n > 0`.  `chunks(0)` panics
in Rust; the model returns `[]` there and every theorem using this function
assumes a positive chunk size. -/
def chunksOf (n : ℕ) (l : List Rgb) : List (List Rgb) :=
  if _h1 : n = 0 then []
  else if h2 : l = [] then []
  else l.take n :: chunksOf n (l.drop n)
termination_by l.length
decreasing_by
  have hl : 0 < l.length := List.length_pos.mpr h2
  simp only [List.length_drop]
  omega

/-- A width × height grid of colors in row-major order, modelling the pixel
content of a `DynamicImage`/`ImageBuffer` (alpha already dropped, as the
sources do before palettizing). -/
structure Image where
  width : ℕ
  height : ℕ
  pixels : List Rgb

/-- Reads the pixel at `(x, y)`, modelling `get_pixel(x, y)` on a row-major
buffer; out-of-range reads (which panic in Rust) return black so the function
is total, and every theorem only reads in range. -/
def Image.getPixel (img : Image) (x y : ℕ) : Rgb :=
  img.pixels.getD (y * img.width + x) ⟨0, 0, 0⟩

namespace pallet

/-- pallet.rs `color_region_differentiation()`: 8.0. -/
def color_region_differentiation : ℚ := 8

/-- pallet.rs `accent_color_multiplier()`: 2.0. -/
def accent_color_multiplier : ℚ := 2

/-- pallet.rs `standard_bias()`: 1.5. -/
def standard_bias : ℚ := 3 / 2

/-- pallet.rs `interpolation_steps()`: 442. -/
def interpolation_steps : ℕ := 442

/-- pallet.rs `white()`. -/
def white : Rgb := ⟨255, 255, 255⟩

/-- pallet.rs `black()`. -/
def black : Rgb := ⟨0, 0, 0⟩

/-- Rust `char::is_ascii_hexdigit`. -/
def is_ascii_hexdigit (c : Char) : Bool :=
  (('0' ≤ c && c ≤ '9') || ('a' ≤ c && c ≤ 'f') || ('A' ≤ c && c ≤ 'F'))

/-- pallet.rs `is_hex`: `trim_start_matches('#')` removes every leading `#`
(dropWhile), then the length must be 3, 6 or 8 and every character must be an
ASCII hex digit. -/
def is_hex (code : String) : Bool :=
  let code := code.data.dropWhile (fun c => c = '#')
  (code.length == 3 || code.length == 6 || code.length == 8)
    && code.all (fun c => is_ascii_hexdigit c)

/-- The radicand of pallet.rs `get_distance`: the source computes
`sqrt(r^2 + g^2 + b^2)` with `r = (|d_r| * 0.299) / bias.unwrap_or(1.0)` and
likewise for g (0.587) and b (0.114); this embedding keeps the sum of squares
and all consumers compare radicands, which the strict monotonicity of the
square root shows equivalent to comparing the source distances. -/
def get_distance_sq (color_1 color_2 : Rgb) (bias : Option ℚ) : ℚ :=
  let r := (|color_1.rq - color_2.rq| * (299 / 1000)) / bias.getD 1
  let g := (|color_1.gq - color_2.gq| * (587 / 1000)) / bias.getD 1
  let b := (|color_1.bq - color_2.bq| * (114 / 1000)) / bias.getD 1
  r ^ 2 + g ^ 2 + b ^ 2

/-- pallet.rs `get_closest_color`: empty palette returns the input color;
otherwise a linear scan starting from the first palette entry, updating on a
strictly smaller distance. -/
def get_closest_color (pallet : List Rgb) (color : Rgb) : Rgb :=
  match pallet with
  | [] => color
  | c0 :: rest =>
    (closest_loop (fun pc => get_distance_sq color pc none)
      (get_distance_sq color c0 none) c0 rest).2

/-- pallet.rs `get_closest_color_biased`: the source guard is
`biased_pallet.is_empty() || biased_pallet.is_empty()` (the standard palette
is never tested); then the biased palette is scanned under the standard bias
and the standard palette is scanned without bias, continuing from the best
pair found so far. -/
def get_closest_color_biased (biased_pallet standard_pallet : List Rgb) (color : Rgb) : Rgb :=
  if biased_pallet.isEmpty || biased_pallet.isEmpty then color
  else
    match biased_pallet with
    | [] => color
    | b0 :: brest =>
      let afterBiased := closest_loop (fun pc => get_distance_sq color pc (some standard_bias))
        (get_distance_sq color b0 (some standard_bias)) b0 brest
      (closest_loop (fun pc => get_distance_sq color pc none)
        afterBiased.1 afterBiased.2 standard_pallet).2

/-- The interpolation loop of pallet.rs `get_colors_between`: push the rounded
current color, then advance each channel by its per-step difference; `n` is
the number of iterations (443 at the call site: `0..=interpolation_steps()`). -/
def interp_loop : ℕ → ℚ × ℚ × ℚ → ℚ × ℚ × ℚ → List Rgb
  | 0, _, _ => []
  | n + 1, cur, d =>
    rgbOfQ cur.1 cur.2.1 cur.2.2 ::
      interp_loop n (cur.1 + d.1, cur.2.1 + d.2.1, cur.2.2 + d.2.2) d

/-- pallet.rs `get_colors_between`: per-channel differences divided by the
step count, 443 interpolation points, duplicates removed preserving order. -/
def get_colors_between (color_1 color_2 : Rgb) : List Rgb :=
  let r_difference := (color_2.rq - color_1.rq) / (interpolation_steps : ℚ)
  let g_difference := (color_2.gq - color_1.gq) / (interpolation_steps : ℚ)
  let b_difference := (color_2.bq - color_1.bq) / (interpolation_steps : ℚ)
  remove_duplicates_ordered
    (interp_loop (interpolation_steps + 1)
      (color_1.rq, color_1.gq, color_1.bq)
      (r_difference, g_difference, b_difference))

/-- pallet.rs `get_1d_spectrum`: white to seed, then seed to black,
concatenated and deduplicated preserving order. -/
def get_1d_spectrum (color : Rgb) : List Rgb :=
  remove_duplicates_ordered
    (get_colors_between white color ++ get_colors_between color black)

/-- pallet.rs `get_average_color_from_pixels`: per-channel rational mean,
rounded then cast (`as u8`). -/
def get_average_color_from_pixels (pixels : List Rgb) : Rgb :=
  let n : ℚ := (pixels.length : ℚ)
  rgbOfQ (((pixels.map Rgb.rq).sum) / n)
    (((pixels.map Rgb.gq).sum) / n)
    (((pixels.map Rgb.bq).sum) / n)

/-- The pixels of an image enumerated row by row, as the nested
`for y { for x { get_pixel(x, y) } }` loops and the `pixels()` iterator
produce them. -/
def pixelsSeq (img : Image) : List Rgb :=
  (List.range img.height).flatMap (fun y =>
    (List.range img.width).map (fun x => img.getPixel x y))

/-- pallet.rs `get_average_color_from_image`: channel sums over the whole
image divided by `width * height`, rounded then cast. -/
def get_average_color_from_image (img : Image) : Rgb :=
  let pixel_count : ℚ := ((img.width * img.height : ℕ) : ℚ)
  rgbOfQ ((((pixelsSeq img).map Rgb.rq).sum) / pixel_count)
    ((((pixelsSeq img).map Rgb.gq).sum) / pixel_count)
    ((((pixelsSeq img).map Rgb.bq).sum) / pixel_count)

/-- The grayscale projection built inside pallet.rs `is_accent_color`:
luma brightness truncated to `u8` (`as u8` truncates toward zero) and
replicated across the three channels. -/
def perceived_greyscale (color : Rgb) : Rgb :=
  let brightness : ℚ :=
    color.rq * (299 / 1000) + color.gq * (587 / 1000) + color.bq * (114 / 1000)
  ⟨clampU8 ⌊brightness⌋, clampU8 ⌊brightness⌋, clampU8 ⌊brightness⌋⟩

/-- pallet.rs `is_accent_color`: the distance from the grayscale projection
exceeds 16.0; compared on radicands (16 squared). -/
def is_accent_color (color : Rgb) : Bool :=
  decide ((color_region_differentiation * accent_color_multiplier) ^ 2
    < get_distance_sq color (perceived_greyscale color) none)

/-- pallet.rs `is_different_color_region`: distance above 8.0, compared on
radicands (8 squared). -/
def is_different_color_region (color_1 color_2 : Rgb) : Bool :=
  decide (color_region_differentiation ^ 2 < get_distance_sq color_1 color_2 none)

/-- pallet.rs `Region`: a growing cluster of colors plus its running average. -/
structure Region where
  colors : List Rgb
  average_color : Rgb

/-- pallet.rs `Region::new`. -/
def Region.new : Region := ⟨[], ⟨0, 0, 0⟩⟩

/-- pallet.rs `Region::add_color`: push then recompute the average. -/
def Region.add_color (reg : Region) (color : Rgb) : Region :=
  let colors := reg.colors ++ [color]
  ⟨colors, get_average_color_from_pixels colors⟩

/-- pallet.rs `Region::add_colors`: extend then recompute the average. -/
def Region.add_colors (reg : Region) (colors : List Rgb) : Region :=
  let cs := reg.colors ++ colors
  ⟨cs, get_average_color_from_pixels cs⟩

/-- pallet.rs `Region::accent_score` is `len * (distance(avg, image_avg) / 10)`.
The selection loop in `get_accent_color` only compares scores (all
nonnegative), so the embedding stores the square of the score, which preserves
every comparison: `len^2 * radicand / 100`. -/
def accent_score_sq (reg : Region) (average_image_color : Rgb) : ℚ :=
  ((reg.colors.length : ℚ)) ^ 2
    * get_distance_sq reg.average_color average_image_color none / 100

/-- The region placement step of `get_accent_color`: scan existing regions in
order, adding the pixel to the first region whose running average is not a
different color region; if none fits, append a fresh region at the end. -/
def place_pixel (regions : List Region) (pixel : Rgb) : List Region :=
  match regions with
  | [] => [Region.new.add_color pixel]
  | reg :: rest =>
    if is_different_color_region reg.average_color pixel then
      reg :: place_pixel rest pixel
    else
      reg.add_color pixel :: rest

/-- The per-chunk clustering of `get_accent_color`: filter accent pixels, then
place each into the growing region list in order. -/
def grow_regions (chunk : List Rgb) : List Region :=
  (chunk.filter (fun p => is_accent_color p)).foldl place_pixel []

/-- The serial merge step of `get_accent_color`: each overlapping region is
merged into the first merged region it fits, else appended. -/
def merge_region (merged : List Region) (reg : Region) : List Region :=
  match merged with
  | [] => [reg]
  | m :: rest =>
    if is_different_color_region reg.average_color m.average_color then
      m :: merge_region rest reg
    else
      m.add_colors reg.colors :: rest

/-- pallet.rs `get_accent_color`.  The runtime worker count
`rayon::current_num_threads()` is a parameter `chunk_count`.  Chunks are
processed independently and concatenated in order (rayon
`into_par_iter().flat_map().collect()` preserves chunk order), then merged
serially; with no merged region the image average is returned, otherwise the
region with the greatest accent score (strict improvement over an initial
score of 0 at index 0). -/
def get_accent_color (chunk_count : ℕ) (img : Image) : Rgb :=
  let average_image_color := get_average_color_from_image img
  let pixels := img.pixels
  let pixels_per_chunk := pixels.length / chunk_count
  let chunks := chunksOf pixels_per_chunk pixels
  let overlapping_accent_regions := chunks.flatMap grow_regions
  let merged_accent_regions := overlapping_accent_regions.foldl merge_region []
  if merged_accent_regions.isEmpty then average_image_color
  else
    let best := merged_accent_regions.enum.foldl
      (fun acc ir =>
        let s := accent_score_sq ir.2 average_image_color
        if acc.1 < s then (s, ir.1) else acc)
      ((0 : ℚ), 0)
    (merged_accent_regions.getD best.2 Region.new).average_color

end pallet

namespace tooling

/-- tooling.rs `get_distance_score`: the absolute channel difference is
DIVIDED by the luma weight (0.299, 0.587, 0.114), squared and summed, with no
square root and no bias.  This is the metric the CPU palettization path uses. -/
def get_distance_score (color_1 color_2 : Rgb) : ℚ :=
  let r_score := |color_1.rq - color_2.rq| / (299 / 1000)
  let g_score := |color_1.gq - color_2.gq| / (587 / 1000)
  let b_score := |color_1.bq - color_2.bq| / (114 / 1000)
  r_score ^ 2 + g_score ^ 2 + b_score ^ 2

/-- The scan loop of tooling.rs `get_closest_color`, including the early
`break` after updating to an exact match (score 0). -/
def get_closest_color_go (color : Rgb) (cd : ℚ) (cc : Rgb) : List Rgb → Rgb
  | [] => cc
  | pc :: rest =>
    let d := get_distance_score color pc
    if d < cd then
      if d = 0 then pc else get_closest_color_go color d pc rest
    else
      get_closest_color_go color cd cc rest

/-- tooling.rs `get_closest_color`: empty palette returns the input color,
otherwise the scan starting from the first entry. -/
def get_closest_color (pallet : List Rgb) (color : Rgb) : Rgb :=
  match pallet with
  | [] => color
  | c0 :: rest => get_closest_color_go color (get_distance_score color c0) c0 rest

/-- tooling.rs `pallet::palletize`: rows of `(x, y, new_pixel)` triples are
produced for `y` in `0..height` and `x` in `0..width` (rayon preserves this
order in `collect`), then written into a fresh black image with
`put_pixel(x, y, pixel)`, i.e. at buffer position `y * width + x`.  The
progress callback does not affect the pixels and is omitted. -/
def palletize (img : Image) (pallet : List Rgb) : Image :=
  let rows : List (ℕ × ℕ × Rgb) := (List.range img.height).flatMap (fun y =>
    (List.range img.width).map (fun x =>
      (x, y, get_closest_color pallet (img.getPixel x y))))
  { width := img.width, height := img.height,
    pixels := rows.foldl (fun acc t => acc.set (t.2.1 * img.width + t.1) t.2.2)
      (List.replicate (img.width * img.height) ⟨0, 0, 0⟩) }

end tooling

namespace compute

/-- Modelled from the spec: the WGSL kernel palletize_evenly.wgsl is loaded by
`include_str!` but the shader file is not under src/.  Per spec section 4.5 the
kernel, for each pixel, performs the identical nearest-color search as the CPU
path (first-encountered strict-minimum scan over the palette under the
unbiased metric) and writes back the palette index of the winner. -/
def kernelEvenly (pallet : List Rgb) (pixel : Rgb) : ℕ :=
  match pallet with
  | [] => 0
  | c0 :: rest =>
    (closest_idx_loop (fun pc => Oxide.pallet.get_distance_sq pixel pc none) 1
      (Oxide.pallet.get_distance_sq pixel c0 none) 0 rest).2

/-- Modelled from the spec: the WGSL kernel palletize_biased.wgsl is loaded by
`include_str!` but the shader file is not under src/.  Per spec section 4.5
the kernel mirrors the CPU biased search in an index space that is
biased-palette-first and standard-palette-second, using the standard bias on
the biased palette. -/
def kernelBiased (biased_pallet standard_pallet : List Rgb) (pixel : Rgb) : ℕ :=
  match biased_pallet with
  | [] => 0
  | b0 :: brest =>
    let afterBiased := closest_idx_loop
      (fun pc => Oxide.pallet.get_distance_sq pixel pc (some Oxide.pallet.standard_bias)) 1
      (Oxide.pallet.get_distance_sq pixel b0 (some Oxide.pallet.standard_bias)) 0 brest
    (closest_idx_loop (fun pc => Oxide.pallet.get_distance_sq pixel pc none)
      (brest.length + 1) afterBiased.1 afterBiased.2 standard_pallet).2

/-- The per-index color lookup of compute.rs `palletize_biased` result
translation: `if index >= biased.len { standard[index - biased.len] } else
{ biased[index] }` (out-of-range panics become `none`). -/
def lookup_biased (biased_pallet standard_pallet : List Rgb) (j : ℕ) : Option Rgb :=
  if biased_pallet.length ≤ j then standard_pallet.get? (j - biased_pallet.length)
  else biased_pallet.get? j

/-- compute.rs `palletize_evenly` lines 214-219: translate every shader result
index through the palette (a panicking index expression, hence `none` out of
range), then the integrity check panicking when the produced pixel count
differs from the input pixel count. -/
def translate_evenly (pixels pallet : List Rgb) (shader_results : List ℕ) :
    Option (List Rgb) :=
  match lookupAll (fun j => pallet.get? j) shader_results with
  | none => none
  | some new_pixels =>
    if new_pixels.length ≠ pixels.length then none else some new_pixels

/-- compute.rs `palletize_biased` lines 398-402: the same translation through
the biased-first index space, then the same integrity check. -/
def translate_biased (pixels biased_pallet standard_pallet : List Rgb)
    (shader_results : List ℕ) : Option (List Rgb) :=
  match lookupAll (lookup_biased biased_pallet standard_pallet) shader_results with
  | none => none
  | some new_pixels =>
    if new_pixels.length ≠ pixels.length then none else some new_pixels

/-- compute.rs `Gpu::palletize_evenly`: dispatch the (spec-modelled) kernel on
every pixel, then translate and integrity-check the results.  The u32 packing
of colors is a bijective encoding and is not modelled. -/
def palletize_evenly (pixels pallet : List Rgb) : Option (List Rgb) :=
  translate_evenly pixels pallet (pixels.map (kernelEvenly pallet))

/-- compute.rs `Gpu::palletize_biased`: dispatch the (spec-modelled) biased
kernel on every pixel, then translate and integrity-check the results. -/
def palletize_biased (pixels biased_pallet standard_pallet : List Rgb) :
    Option (List Rgb) :=
  translate_biased pixels biased_pallet standard_pallet
    (pixels.map (kernelBiased biased_pallet standard_pallet))

/-- compute.rs `process_evenly`: run the GPU path on the row-major pixel list,
then fill a fresh image placing element `x` of the result at
`x_index = x % width`, `y_index = x / width`, i.e. buffer position
`(x / width) * width + x % width`.  A `none` result models a panic. -/
def process_evenly (img : Image) (pallet : List Rgb) : Option Image :=
  match palletize_evenly img.pixels pallet with
  | none => none
  | some new_pixels =>
    let filled := (List.range new_pixels.length).foldl
      (fun acc x => acc.set ((x / img.width) * img.width + x % img.width)
        (new_pixels.getD x ⟨0, 0, 0⟩))
      (List.replicate (img.width * img.height) ⟨0, 0, 0⟩)
    some { width := img.width, height := img.height, pixels := filled }

/-- compute.rs `process_biased`: the biased analogue of `process_evenly` with
the same fill loop. -/
def process_biased (img : Image) (biased_pallet standard_pallet : List Rgb) :
    Option Image :=
  match palletize_biased img.pixels biased_pallet standard_pallet with
  | none => none
  | some new_pixels =>
    let filled := (List.range new_pixels.length).foldl
      (fun acc x => acc.set ((x / img.width) * img.width + x % img.width)
        (new_pixels.getD x ⟨0, 0, 0⟩))
      (List.replicate (img.width * img.height) ⟨0, 0, 0⟩)
    some { width := img.width, height := img.height, pixels := filled }

end compute

/-- Modelled from the spec: the quantization remap of spec section 4.3 step 3,
`(value / bucketWidth) * bucketWidth + bucketWidth / 2` on every channel
(`condense_color_pallet` is called from processor.rs but its definition is not
under src/). -/
def quantize (bucketWidth : ℕ) (c : Rgb) : Rgb :=
  ⟨clampU8 ((c.r.val / bucketWidth * bucketWidth + bucketWidth / 2 : ℕ) : ℤ),
   clampU8 ((c.g.val / bucketWidth * bucketWidth + bucketWidth / 2 : ℕ) : ℤ),
   clampU8 ((c.b.val / bucketWidth * bucketWidth + bucketWidth / 2 : ℕ) : ℤ)⟩

/-- Modelled from the spec: the condensation pass loop of spec section 4.3,
remapping onto ever coarser buckets and deduplicating until the palette fits
under the ceiling; running out of passes is the fatal non-convergence error
(`none`). -/
def condense_go : ℕ → ℕ → List Rgb → ℕ → Option (List Rgb)
  | 0, _, _, _ => none
  | fuel + 1, bucketWidth, current, ceiling =>
    let next := remove_duplicates_ordered (current.map (quantize bucketWidth))
    if next.length ≤ ceiling then some next
    else condense_go fuel (bucketWidth + 1) next ceiling

/-- Modelled from the spec: `condense_color_pallet` is called from
processor.rs but its definition is not under src/.  Spec section 4.3:
deduplicate; return if already within the ceiling; otherwise run quantization
passes with an increasing bucket width (starting at 2), deduplicating after
each pass, for at most 50 passes; non-convergence is fatal (`none`). -/
def condense_color_pallet (pallet : List Rgb) (ceiling : ℕ) : Option (List Rgb) :=
  let deduped := remove_duplicates_ordered pallet
  if deduped.length ≤ ceiling then some deduped
  else condense_go 50 2 deduped ceiling

/-- Reference definition following the words of the specification of the
distance metric (for the refinement claim about `get_distance`): the square of
`sqrt(Σ (weight * |channel difference| / bias)^2)`, weights 0.299, 0.587,
0.114, bias defaulting to 1. -/
def spec_distance_sq (a b : Rgb) (bias : Option ℚ) : ℚ :=
  ((299 / 1000) * |a.rq - b.rq| / bias.getD 1) ^ 2
    + ((587 / 1000) * |a.gq - b.gq| / bias.getD 1) ^ 2
    + ((114 / 1000) * |a.bq - b.bq| / bias.getD 1) ^ 2

/-- Reference definition following the words of the hex-validation claim
(for the refinement claim about `is_hex`): trim AT MOST ONE leading `#`. -/
def spec_trim_one (s : List Char) : List Char :=
  match s with
  | '#' :: rest => rest
  | l => l

/-- Reference definition following the words of the hex-validation claim:
after trimming an optional (single) leading `#`, the remainder has length 3,
6 or 8 and every character is a hex digit. -/
def spec_is_hex (code : String) : Bool :=
  let t := spec_trim_one code.data
  (t.length == 3 || t.length == 6 || t.length == 8)
    && t.all (fun c => pallet.is_ascii_hexdigit c)

end Oxide

namespace Oxide

/-- The ordered deduplication preserves exactly the members of its input. -/
theorem mem_remove_duplicates_ordered (a : Rgb) :
    ∀ (l : List Rgb), a ∈ remove_duplicates_ordered l ↔ a ∈ l := by
  intro l
  induction l with
  | nil => simp [remove_duplicates_ordered]
  | cons x xs ih =>
    by_cases hax : a = x
    · subst hax; simp [remove_duplicates_ordered]
    · simp [remove_duplicates_ordered, List.mem_filter, hax, ih]

/-- The ordered deduplication produces a list without duplicates. -/
theorem nodup_remove_duplicates_ordered :
    ∀ (l : List Rgb), (remove_duplicates_ordered l).Nodup := by
  intro l
  induction l with
  | nil => simp [remove_duplicates_ordered]
  | cons x xs ih =>
    rw [remove_duplicates_ordered, List.nodup_cons]
    refine ⟨?_, ih.filter _⟩
    intro hmem
    have := (List.mem_filter.mp hmem).2
    simp at this

/-- Rounding half away from zero fixes integers. -/
theorem roundQ_intCast (n : ℤ) : roundQ (n : ℚ) = n := by
  unfold roundQ
  rw [Int.floor_eq_iff]
  constructor
  · linarith
  · linarith

/-- The saturating cast fixes channel values already in range. -/
theorem clampU8_roundQ_channel (x : Fin 256) : clampU8 (roundQ ((x.val : ℚ))) = x := by
  have h1 : ((x.val : ℚ)) = (((x.val : ℤ) : ℚ)) := by push_cast; rfl
  rw [h1, roundQ_intCast]
  have hx := x.isLt
  unfold clampU8
  split
  · exfalso; omega
  · split
    · exfalso; omega
    · apply Fin.ext
      simp

/-- `rgbOfQ` applied to the exact channel values of a color returns that
color. -/
theorem rgbOfQ_exact (c : Rgb) : rgbOfQ c.rq c.gq c.bq = c := by
  cases c with
  | mk r g b =>
    simp only [rgbOfQ, Rgb.rq, Rgb.gq, Rgb.bq]
    rw [clampU8_roundQ_channel r, clampU8_roundQ_channel g, clampU8_roundQ_channel b]

/-- Every interpolation point `cur + k * d` with `k < n` is pushed by the
interpolation loop. -/
theorem interp_loop_mem : ∀ (n k : ℕ), k < n → ∀ (cur d : ℚ × ℚ × ℚ),
    rgbOfQ (cur.1 + k * d.1) (cur.2.1 + k * d.2.1) (cur.2.2 + k * d.2.2) ∈
      pallet.interp_loop n cur d := by
  intro n
  induction n with
  | zero => intro k hk; omega
  | succ n ih =>
    intro k hk cur d
    match k with
    | 0 => simp [pallet.interp_loop]
    | k + 1 =>
      have hk' : k < n := by omega
      have htail := ih k hk' (cur.1 + d.1, cur.2.1 + d.2.1, cur.2.2 + d.2.2) d
      rw [pallet.interp_loop]
      apply List.mem_cons_of_mem
      dsimp only at htail
      convert htail using 2 <;> push_cast <;> ring

/-- Traversing all 442 steps from `a` lands exactly on `b`. -/
theorem interp_endpoint_value (a b : ℚ) :
    a + ((pallet.interpolation_steps : ℕ) : ℚ) * ((b - a) / ((pallet.interpolation_steps : ℕ) : ℚ)) = b := by
  have h : (((pallet.interpolation_steps : ℕ)) : ℚ) ≠ 0 := by
    norm_num [pallet.interpolation_steps]
  field_simp

/-- The first color is a member of the interpolated gradient. -/
theorem left_mem_get_colors_between (c1 c2 : Rgb) :
    c1 ∈ pallet.get_colors_between c1 c2 := by
  unfold pallet.get_colors_between
  rw [mem_remove_duplicates_ordered]
  have h := interp_loop_mem (pallet.interpolation_steps + 1) 0 (by omega)
    (c1.rq, c1.gq, c1.bq)
    ((c2.rq - c1.rq) / ((pallet.interpolation_steps : ℕ) : ℚ),
     (c2.gq - c1.gq) / ((pallet.interpolation_steps : ℕ) : ℚ),
     (c2.bq - c1.bq) / ((pallet.interpolation_steps : ℕ) : ℚ))
  simpa [rgbOfQ_exact] using h

/-- The second color is a member of the interpolated gradient. -/
theorem right_mem_get_colors_between (c1 c2 : Rgb) :
    c2 ∈ pallet.get_colors_between c1 c2 := by
  unfold pallet.get_colors_between
  rw [mem_remove_duplicates_ordered]
  have h := interp_loop_mem (pallet.interpolation_steps + 1) pallet.interpolation_steps
    (by omega)
    (c1.rq, c1.gq, c1.bq)
    ((c2.rq - c1.rq) / ((pallet.interpolation_steps : ℕ) : ℚ),
     (c2.gq - c1.gq) / ((pallet.interpolation_steps : ℕ) : ℚ),
     (c2.bq - c1.bq) / ((pallet.interpolation_steps : ℕ) : ℚ))
  simpa [interp_endpoint_value, rgbOfQ_exact] using h

/-- C5: for every seed color, the line spectrum `get_1d_spectrum(seed)`
contains pure white, pure black and the seed color itself, and contains no
duplicate entries. -/
theorem C5_line_spectrum_endpoints (seed : Rgb) :
    pallet.white ∈ pallet.get_1d_spectrum seed ∧
    pallet.black ∈ pallet.get_1d_spectrum seed ∧
    seed ∈ pallet.get_1d_spectrum seed ∧
    (pallet.get_1d_spectrum seed).Nodup := by
  unfold pallet.get_1d_spectrum
  refine ⟨?_, ?_, ?_, nodup_remove_duplicates_ordered _⟩
  · rw [mem_remove_duplicates_ordered]
    exact List.mem_append_left _ (left_mem_get_colors_between _ _)
  · rw [mem_remove_duplicates_ordered]
    exact List.mem_append_right _ (right_mem_get_colors_between _ _)
  · rw [mem_remove_duplicates_ordered]
    exact List.mem_append_left _ (right_mem_get_colors_between _ _)

/-- The pallet.rs radicand is a sum of squares, hence nonnegative. -/
theorem get_distance_sq_nonneg (a b : Rgb) (bias : Option ℚ) :
    0 ≤ pallet.get_distance_sq a b bias := by
  unfold pallet.get_distance_sq
  positivity

/-- The tooling.rs score is a sum of squares, hence nonnegative. -/
theorem get_distance_score_nonneg (a b : Rgb) :
    0 ≤ tooling.get_distance_score a b := by
  unfold tooling.get_distance_score
  positivity

/-- If no remaining candidate strictly beats the current best distance, the
scan returns its accumulator unchanged. -/
theorem closest_loop_of_not_lt (f : Rgb → ℚ) :
    ∀ (l : List Rgb) (cd : ℚ) (cc : Rgb), (∀ pc ∈ l, ¬ f pc < cd) →
      closest_loop f cd cc l = (cd, cc) := by
  intro l
  induction l with
  | nil => intro cd cc _; rfl
  | cons pc rest ih =>
    intro cd cc h
    rw [closest_loop, if_neg (h pc (List.mem_cons_self pc rest))]
    exact ih cd cc (fun x hx => h x (List.mem_cons_of_mem pc hx))

/-- Full characterization of the scan loop: either nothing beat the initial
accumulator (which is then returned, and bounds the whole list from below), or
the loop returns the first list element attaining the strict minimum: it beats
the initial distance, is a lower bound of the list, and strictly beats every
earlier element. -/
theorem closest_loop_first_min (f : Rgb → ℚ) :
    ∀ (l : List Rgb) (cd : ℚ) (cc : Rgb),
      (closest_loop f cd cc l = (cd, cc) ∧
        ∀ j, (hj : j < l.length) → cd ≤ f (l.get ⟨j, hj⟩)) ∨
      (∃ i, ∃ h : i < l.length,
        closest_loop f cd cc l = (f (l.get ⟨i, h⟩), l.get ⟨i, h⟩) ∧
        f (l.get ⟨i, h⟩) < cd ∧
        (∀ j, (hj : j < l.length) → f (l.get ⟨i, h⟩) ≤ f (l.get ⟨j, hj⟩)) ∧
        (∀ j, (hj : j < i) → f (l.get ⟨i, h⟩) < f (l.get ⟨j, Nat.lt_trans hj h⟩))) := by
  intro l
  induction l with
  | nil =>
    intro cd cc
    left
    exact ⟨rfl, fun j hj => absurd hj (by simp)⟩
  | cons pc rest ih =>
    intro cd cc
    by_cases hlt : f pc < cd
    · rcases ih (f pc) pc with ⟨heq, hmin⟩ | ⟨i, hi, heq, hlt2, hmin, hfirst⟩
      · right
        refine ⟨0, by simp, ?_, by simpa using hlt, ?_, ?_⟩
        · rw [closest_loop, if_pos hlt, heq]
          simp
        · intro j hj
          match j with
          | 0 => simp
          | j + 1 =>
            simpa using hmin j (by simpa using Nat.lt_of_succ_lt_succ hj)
        · intro j hj
          exact absurd hj (Nat.not_lt_zero j)
      · right
        refine ⟨i + 1, Nat.succ_lt_succ hi, ?_, ?_, ?_, ?_⟩
        · rw [closest_loop, if_pos hlt, heq]
          simp
        · simpa using lt_trans hlt2 hlt
        · intro j hj
          match j with
          | 0 => simpa using le_of_lt hlt2
          | j + 1 =>
            simpa using hmin j (Nat.lt_of_succ_lt_succ hj)
        · intro j hj
          match j with
          | 0 => simpa using hlt2
          | j + 1 =>
            simpa using hfirst j (Nat.lt_of_succ_lt_succ hj)
    · rcases ih cd cc with ⟨heq, hmin⟩ | ⟨i, hi, heq, hlt2, hmin, hfirst⟩
      · left
        refine ⟨?_, ?_⟩
        · rw [closest_loop, if_neg hlt, heq]
        · intro j hj
          match j with
          | 0 => simpa using not_lt.mp hlt
          | j + 1 =>
            simpa using hmin j (Nat.lt_of_succ_lt_succ hj)
      · right
        refine ⟨i + 1, Nat.succ_lt_succ hi, ?_, ?_, ?_, ?_⟩
        · rw [closest_loop, if_neg hlt, heq]
          simp
        · simpa using hlt2
        · intro j hj
          match j with
          | 0 => simpa using le_of_lt (lt_of_lt_of_le hlt2 (not_lt.mp hlt))
          | j + 1 =>
            simpa using hmin j (Nat.lt_of_succ_lt_succ hj)
        · intro j hj
          match j with
          | 0 => simpa using lt_of_lt_of_le hlt2 (not_lt.mp hlt)
          | j + 1 =>
            simpa using hfirst j (Nat.lt_of_succ_lt_succ hj)

/-- The index-tracking loop and the value-tracking loop stay aligned through
any lookup function that maps the tracked indices to the tracked values. -/
theorem closest_idx_loop_agrees (f : Rgb → ℚ) (L : ℕ → Option Rgb) :
    ∀ (l : List Rgb) (i bi : ℕ) (cd : ℚ) (cc : Rgb),
      L bi = some cc →
      (∀ k, (hk : k < l.length) → L (i + k) = some (l.get ⟨k, hk⟩)) →
      (closest_idx_loop f i cd bi l).1 = (closest_loop f cd cc l).1 ∧
      L ((closest_idx_loop f i cd bi l).2) = some ((closest_loop f cd cc l).2) := by
  intro l
  induction l with
  | nil =>
    intro i bi cd cc hbi _
    exact ⟨rfl, hbi⟩
  | cons pc rest ih =>
    intro i bi cd cc hbi hl
    have hhead : L i = some pc := by simpa using hl 0 (by simp)
    have htail : ∀ k, (hk : k < rest.length) → L ((i + 1) + k) = some (rest.get ⟨k, hk⟩) := by
      intro k hk
      have h := hl (k + 1) (by simpa using Nat.succ_lt_succ hk)
      have harith : i + (k + 1) = (i + 1) + k := by omega
      rw [harith] at h
      simpa using h
    by_cases hlt : f pc < cd
    · rw [closest_idx_loop, closest_loop, if_pos hlt, if_pos hlt]
      exact ih (i + 1) i (f pc) pc hhead htail
    · rw [closest_idx_loop, closest_loop, if_neg hlt, if_neg hlt]
      exact ih (i + 1) bi cd cc hbi htail

/-- The early exit of the tooling scan does not change its result: once an
exact match (score 0) is reached, no later candidate can strictly improve on
it, so breaking equals continuing. -/
theorem get_closest_color_go_eq (color : Rgb) :
    ∀ (l : List Rgb) (cd : ℚ) (cc : Rgb),
      tooling.get_closest_color_go color cd cc l =
        (closest_loop (fun pc => tooling.get_distance_score color pc) cd cc l).2 := by
  intro l
  induction l with
  | nil => intro cd cc; rfl
  | cons pc rest ih =>
    intro cd cc
    rw [tooling.get_closest_color_go, closest_loop]
    by_cases hlt : tooling.get_distance_score color pc < cd
    · rw [if_pos hlt, if_pos hlt]
      by_cases hz : tooling.get_distance_score color pc = 0
      · rw [if_pos hz]
        have hstuck : closest_loop (fun pc => tooling.get_distance_score color pc)
            (tooling.get_distance_score color pc) pc rest = (tooling.get_distance_score color pc, pc) := by
          apply closest_loop_of_not_lt
          intro x _
          rw [hz]
          exact not_lt.mpr (get_distance_score_nonneg color x)
        rw [hstuck]
      · rw [if_neg hz]
        exact ih _ _
    · rw [if_neg hlt, if_neg hlt]
      exact ih _ _

/-- Scaling the metric and the initial distance by the same positive factor
changes no comparison, hence no selection. -/
theorem closest_loop_scale (g : Rgb → ℚ) (s : ℚ) (hs : 0 < s) :
    ∀ (l : List Rgb) (cd : ℚ) (cc : Rgb),
      closest_loop (fun pc => s * g pc) (s * cd) cc l =
        (s * (closest_loop g cd cc l).1, (closest_loop g cd cc l).2) := by
  intro l
  induction l with
  | nil => intro cd cc; rfl
  | cons pc rest ih =>
    intro cd cc
    by_cases hlt : g pc < cd
    · rw [closest_loop, closest_loop, if_pos ((mul_lt_mul_left hs).mpr hlt), if_pos hlt]
      exact ih (g pc) pc
    · rw [closest_loop, closest_loop,
        if_neg (fun hc => hlt ((mul_lt_mul_left hs).mp hc)), if_neg hlt]
      exact ih cd cc

/-- Dividing every channel difference by the standard bias 1.5 scales the
radicand by 4/9. -/
theorem get_distance_sq_bias_eq (a b : Rgb) :
    pallet.get_distance_sq a b (some pallet.standard_bias) =
      (4 / 9) * pallet.get_distance_sq a b none := by
  simp only [pallet.get_distance_sq, pallet.standard_bias, Option.getD_some, Option.getD_none]
  ring

/-- C6: a nearest-color query against an empty palette returns the input
color unchanged in the even query (pallet.rs and tooling.rs) and in the biased
query (empty biased palette, any standard palette). -/
theorem C6_empty_palette_identity :
    (∀ (color : Rgb), pallet.get_closest_color [] color = color) ∧
    (∀ (standard_pallet : List Rgb) (color : Rgb),
      pallet.get_closest_color_biased [] standard_pallet color = color) ∧
    (∀ (color : Rgb), tooling.get_closest_color [] color = color) :=
  ⟨fun _ => rfl, fun _ _ => rfl, fun _ => rfl⟩

/-- C10: in `get_closest_color_biased` only the biased palette guards the
identity fallback: an empty biased palette returns the input for every
standard palette, and a nonempty biased palette with an empty standard palette
searches the biased palette alone, agreeing with the unbiased single-palette
search (the uniform bias rescales all compared distances by the same positive
factor). -/
theorem C10_biased_guard_asymmetry :
    (∀ (standard_pallet : List Rgb) (color : Rgb),
      pallet.get_closest_color_biased [] standard_pallet color = color) ∧
    (∀ (biased_pallet : List Rgb) (color : Rgb), biased_pallet ≠ [] →
      pallet.get_closest_color_biased biased_pallet [] color =
        pallet.get_closest_color biased_pallet color) := by
  constructor
  · intro s c
    rfl
  · intro biased c hne
    match biased with
    | b0 :: brest =>
      have hfun : (fun pc => pallet.get_distance_sq c pc (some pallet.standard_bias)) =
          (fun pc => (4 / 9 : ℚ) * pallet.get_distance_sq c pc none) := by
        funext pc
        exact get_distance_sq_bias_eq c pc
      unfold pallet.get_closest_color_biased pallet.get_closest_color
      rw [if_neg (by simp)]
      dsimp only
      rw [closest_loop, hfun, get_distance_sq_bias_eq c b0,
        closest_loop_scale _ _ (by norm_num)]

/-- C10 witness: concrete instantiation of the nonempty-biased, empty-standard
case. -/
theorem C10_biased_guard_asymmetry_witness :
    ([(⟨10, 20, 30⟩ : Rgb)] ≠ []) ∧
    pallet.get_closest_color_biased [(⟨10, 20, 30⟩ : Rgb)] [] ⟨1, 2, 3⟩ =
      pallet.get_closest_color [(⟨10, 20, 30⟩ : Rgb)] ⟨1, 2, 3⟩ :=
  ⟨by decide, C10_biased_guard_asymmetry.2 [(⟨10, 20, 30⟩ : Rgb)] ⟨1, 2, 3⟩ (by decide)⟩

/-- C7: a pixel equidistant (under the unbiased metric) between a biased
palette color and a standard palette color is resolved to the biased color by
the biased search with the fixed standard bias 1.5. -/
theorem C7_biased_preference (p bc sc : Rgb)
    (heq : pallet.get_distance_sq p bc none = pallet.get_distance_sq p sc none) :
    pallet.get_closest_color_biased [bc] [sc] p = bc := by
  unfold pallet.get_closest_color_biased
  rw [if_neg (by simp)]
  dsimp only
  have hnn := get_distance_sq_nonneg p bc none
  have hnot : ¬ pallet.get_distance_sq p sc none <
      pallet.get_distance_sq p bc (some pallet.standard_bias) := by
    rw [get_distance_sq_bias_eq, ← heq]
    linarith
  rw [closest_loop, closest_loop, if_neg hnot]
  rfl

/-- C7 witness: the pixel (5,0,0) is equidistant between the biased color
(0,0,0) and the standard color (10,0,0), and the biased color wins. -/
theorem C7_biased_preference_witness :
    pallet.get_distance_sq ⟨5, 0, 0⟩ ⟨0, 0, 0⟩ none =
      pallet.get_distance_sq ⟨5, 0, 0⟩ ⟨10, 0, 0⟩ none ∧
    pallet.get_closest_color_biased [(⟨0, 0, 0⟩ : Rgb)] [(⟨10, 0, 0⟩ : Rgb)] ⟨5, 0, 0⟩ =
      ⟨0, 0, 0⟩ := by
  have heq : pallet.get_distance_sq ⟨5, 0, 0⟩ ⟨0, 0, 0⟩ none =
      pallet.get_distance_sq ⟨5, 0, 0⟩ ⟨10, 0, 0⟩ none := by
    norm_num [pallet.get_distance_sq, Rgb.rq, Rgb.gq, Rgb.bq,
      show ((5 : Fin 256)).val = 5 from rfl, show ((10 : Fin 256)).val = 10 from rfl,
      show ((0 : Fin 256)).val = 0 from rfl]
  exact ⟨heq, C7_biased_preference ⟨5, 0, 0⟩ ⟨0, 0, 0⟩ ⟨10, 0, 0⟩ heq⟩

/-- C9: even palettization is deterministic: the embedding of
`tooling::pallet::palletize` is a pure function of the image and the palette
(rayon collects the per-row results in index order), so two runs agree
bit for bit; and ties between equally distant palette colors are broken by
first-encountered order: the returned color sits at an index that minimizes
the distance score and strictly beats every earlier index. -/
theorem C9_even_palettization_deterministic :
    (∀ (img : Image) (pallet_colors : List Rgb),
      tooling.palletize img pallet_colors = tooling.palletize img pallet_colors) ∧
    (∀ (pallet_colors : List Rgb) (color : Rgb), pallet_colors ≠ [] →
      ∃ i, ∃ h : i < pallet_colors.length,
        tooling.get_closest_color pallet_colors color = pallet_colors.get ⟨i, h⟩ ∧
        (∀ j, (hj : j < pallet_colors.length) →
          tooling.get_distance_score color (pallet_colors.get ⟨i, h⟩) ≤
            tooling.get_distance_score color (pallet_colors.get ⟨j, hj⟩)) ∧
        (∀ j, (hj : j < i) →
          tooling.get_distance_score color (pallet_colors.get ⟨i, h⟩) <
            tooling.get_distance_score color (pallet_colors.get ⟨j, Nat.lt_trans hj h⟩))) := by
  constructor
  · intro img pallet_colors
    rfl
  · intro l c hne
    match l with
    | c0 :: rest =>
      simp only [tooling.get_closest_color]
      rw [get_closest_color_go_eq]
      rcases closest_loop_first_min (fun pc => tooling.get_distance_score c pc) rest
          (tooling.get_distance_score c c0) c0 with
        ⟨heq, hmin⟩ | ⟨i, hi, heq, hlt2, hmin, hfirst⟩
      · refine ⟨0, by simp, ?_, ?_, ?_⟩
        · rw [heq]
          simp
        · intro j hj
          match j with
          | 0 => simp
          | j + 1 =>
            simpa using hmin j (Nat.lt_of_succ_lt_succ hj)
        · intro j hj
          exact absurd hj (Nat.not_lt_zero j)
      · refine ⟨i + 1, Nat.succ_lt_succ hi, ?_, ?_, ?_⟩
        · rw [heq]
          simp
        · intro j hj
          match j with
          | 0 => simpa using le_of_lt hlt2
          | j + 1 =>
            simpa using hmin j (Nat.lt_of_succ_lt_succ hj)
        · intro j hj
          match j with
          | 0 => simpa using hlt2
          | j + 1 =>
            simpa using hfirst j (Nat.lt_of_succ_lt_succ hj)

/-- C9 witness: a two-color palette where the input pixel ties both entries;
the search settles on the first entry. -/
theorem C9_even_palettization_deterministic_witness :
    ([(⟨0, 0, 0⟩ : Rgb), ⟨10, 0, 0⟩] ≠ []) ∧
    ∃ i, ∃ h : i < ([(⟨0, 0, 0⟩ : Rgb), ⟨10, 0, 0⟩]).length,
      tooling.get_closest_color [(⟨0, 0, 0⟩ : Rgb), ⟨10, 0, 0⟩] ⟨5, 0, 0⟩ =
        ([(⟨0, 0, 0⟩ : Rgb), ⟨10, 0, 0⟩]).get ⟨i, h⟩ ∧
      (∀ j, (hj : j < ([(⟨0, 0, 0⟩ : Rgb), ⟨10, 0, 0⟩]).length) →
        tooling.get_distance_score ⟨5, 0, 0⟩ (([(⟨0, 0, 0⟩ : Rgb), ⟨10, 0, 0⟩]).get ⟨i, h⟩) ≤
          tooling.get_distance_score ⟨5, 0, 0⟩ (([(⟨0, 0, 0⟩ : Rgb), ⟨10, 0, 0⟩]).get ⟨j, hj⟩)) ∧
      (∀ j, (hj : j < i) →
        tooling.get_distance_score ⟨5, 0, 0⟩ (([(⟨0, 0, 0⟩ : Rgb), ⟨10, 0, 0⟩]).get ⟨i, h⟩) <
          tooling.get_distance_score ⟨5, 0, 0⟩ (([(⟨0, 0, 0⟩ : Rgb), ⟨10, 0, 0⟩]).get ⟨j, Nat.lt_trans hj h⟩)) :=
  ⟨by decide, C9_even_palettization_deterministic.2 [(⟨0, 0, 0⟩ : Rgb), ⟨10, 0, 0⟩] ⟨5, 0, 0⟩ (by decide)⟩

/-- Comparing the source distances (with their final square root) is the same
as comparing the radicands kept by this embedding. -/
theorem sqrt_lt_sqrt_iff_radicand (x y : ℚ) (hx : 0 ≤ x) :
    Real.sqrt (x : ℝ) < Real.sqrt (y : ℝ) ↔ x < y := by
  rw [Real.sqrt_lt_sqrt_iff (by exact_mod_cast hx)]
  exact ⟨fun h => by exact_mod_cast h, fun h => by exact_mod_cast h⟩

/-- Setting an element just past a left part writes into the right part. -/
theorem set_append_left (l₂ : List Rgb) (k : ℕ) (v : Rgb) :
    ∀ (l₁ : List Rgb), (l₁ ++ l₂).set (l₁.length + k) v = l₁ ++ l₂.set k v := by
  intro l₁
  induction l₁ with
  | nil => simp
  | cons a t ih =>
    have harith : (a :: t).length + k = (t.length + k) + 1 := by
      simp
      omega
    rw [List.cons_append, harith, List.set_cons_succ, ih, List.cons_append]

/-- Folding `set` over `range n` at offset `s` overwrites exactly the window
`[s, s + n)` with the generated values. -/
theorem foldl_set_offset (g : ℕ → Rgb) :
    ∀ (n s : ℕ) (A : List Rgb), s + n ≤ A.length →
      (List.range n).foldl (fun acc x => acc.set (s + x) (g x)) A =
        A.take s ++ (List.range n).map g ++ A.drop (s + n) := by
  intro n
  induction n with
  | zero => intro s A _; simp
  | succ n ih =>
    intro s A h
    rw [List.range_succ, List.foldl_append]
    simp only [List.foldl_cons, List.foldl_nil]
    rw [ih s A (by omega)]
    have hlen1 : (A.take s ++ (List.range n).map g).length = s + n := by
      simp [List.length_take]
      omega
    have hset : (A.take s ++ (List.range n).map g ++ A.drop (s + n)).set (s + n) (g n)
        = A.take s ++ (List.range n).map g ++ (A.drop (s + n)).set 0 (g n) := by
      have hgen := set_append_left (A.drop (s + n)) 0 (g n)
        (A.take s ++ (List.range n).map g)
      rw [hlen1] at hgen
      simpa using hgen
    rw [hset, List.drop_eq_getElem_cons (show s + n < A.length by omega),
      List.set_cons_zero, List.map_append]
    have h3 : s + (n + 1) = (s + n) + 1 := by omega
    rw [h3]
    simp [List.append_assoc]

/-- The zero-offset special case of `foldl_set_offset`. -/
theorem foldl_set_zero (g : ℕ → Rgb) (n : ℕ) (A : List Rgb) (h : n ≤ A.length) :
    (List.range n).foldl (fun acc x => acc.set x (g x)) A =
      (List.range n).map g ++ A.drop n := by
  have h0 := foldl_set_offset g n 0 A (by omega)
  simp only [Nat.zero_add, List.take_zero, List.nil_append] at h0
  exact h0

/-- Reading a list back element by element reproduces the list. -/
theorem map_range_getD (l : List Rgb) (d : Rgb) :
    (List.range l.length).map (fun k => l.getD k d) = l := by
  apply List.ext_getElem
  · simp
  · intro i h1 h2
    simp only [List.getElem_map, List.getElem_range]
    exact List.getD_eq_getElem l d h2

/-- `getD` inside a mapped range evaluates the generator. -/
theorem getD_map_range (n : ℕ) (f : ℕ → Rgb) (j : ℕ) (hj : j < n) (d : Rgb) :
    ((List.range n).map f).getD j d = f j := by
  rw [List.getD_eq_getElem _ d (by simpa using hj)]
  simp

/-- The row-by-row enumeration of a `w`-column grid equals the flat
enumeration of all `h * w` cells with coordinates recovered by division and
remainder. -/
theorem flatMap_range_mul {α : Type} (w h : ℕ) (hw : 0 < w) (f : ℕ → ℕ → α) :
    (List.range h).flatMap (fun y => (List.range w).map (fun x => f x y)) =
      (List.range (h * w)).map (fun k => f (k % w) (k / w)) := by
  induction h with
  | zero => simp
  | succ h ih =>
    rw [List.range_succ, List.flatMap_append, ih]
    have hmul : (h + 1) * w = h * w + w := by ring
    rw [hmul, List.range_add, List.map_append, List.map_map]
    congr 1
    · simp only [List.flatMap_cons, List.flatMap_nil, List.append_nil]
      apply List.map_congr_left
      intro x hx
      have hxw : x < w := List.mem_range.mp hx
      have hx1 : (h * w + x) % w = x := by
        rw [Nat.mul_comm, Nat.mul_add_mod, Nat.mod_eq_of_lt hxw]
      have hx2 : (h * w + x) / w = h := by
        rw [Nat.mul_comm, Nat.mul_add_div hw, Nat.div_eq_of_lt hxw, Nat.add_zero]
      simp only [Function.comp]
      rw [hx1, hx2]

/-- Pointwise successful lookups make the whole translation succeed with the
pointwise values. -/
theorem lookupAll_map_eq (L : ℕ → Option Rgb) (K : Rgb → ℕ) (G : Rgb → Rgb) :
    ∀ (l : List Rgb), (∀ a ∈ l, L (K a) = some (G a)) →
      lookupAll L (l.map K) = some (l.map G) := by
  intro l
  induction l with
  | nil => intro _; rfl
  | cons a t ih =>
    intro h
    rw [List.map_cons, lookupAll, h a (List.mem_cons_self a t),
      ih (fun x hx => h x (List.mem_cons_of_mem a hx)), List.map_cons]

/-- A successful translation produces exactly one color per index. -/
theorem lookupAll_length (L : ℕ → Option Rgb) :
    ∀ (l : List ℕ) (out : List Rgb), lookupAll L l = some out → out.length = l.length := by
  intro l
  induction l with
  | nil =>
    intro out h
    rw [lookupAll] at h
    cases h
    rfl
  | cons i rest ih =>
    intro out h
    rw [lookupAll] at h
    rcases hLi : L i with _ | c <;> rcases hrec : lookupAll L rest with _ | cs <;>
      rw [hLi, hrec] at h <;> simp at h
    rw [← h]
    simp [ih cs hrec]

/-- A shader-result list whose length differs from the pixel count is rejected
by the even translation (the integrity check). -/
theorem translate_evenly_mismatch (pixels pallet_colors : List Rgb) (results : List ℕ)
    (h : results.length ≠ pixels.length) :
    compute.translate_evenly pixels pallet_colors results = none := by
  unfold compute.translate_evenly
  cases hres : lookupAll (fun j => pallet_colors.get? j) results with
  | none => rfl
  | some out =>
    have hlen := lookupAll_length _ _ _ hres
    have hout : out.length ≠ pixels.length := by omega
    simp [hout]

/-- A shader-result list whose length differs from the pixel count is rejected
by the biased translation (the integrity check). -/
theorem translate_biased_mismatch (pixels biased_pallet standard_pallet : List Rgb)
    (results : List ℕ) (h : results.length ≠ pixels.length) :
    compute.translate_biased pixels biased_pallet standard_pallet results = none := by
  unfold compute.translate_biased
  cases hres : lookupAll (compute.lookup_biased biased_pallet standard_pallet) results with
  | none => rfl
  | some out =>
    have hlen := lookupAll_length _ _ _ hres
    have hout : out.length ≠ pixels.length := by omega
    simp [hout]

/-- The even kernel returns the palette index of exactly the color the CPU
search would pick. -/
theorem kernelEvenly_lookup (pl : List Rgb) (px : Rgb) (hne : pl ≠ []) :
    pl.get? (compute.kernelEvenly pl px) = some (pallet.get_closest_color pl px) := by
  match pl with
  | c0 :: rest =>
    have hhyp : ∀ k, (hk : k < rest.length) →
        (c0 :: rest).get? (1 + k) = some (rest.get ⟨k, hk⟩) := by
      intro k hk
      rw [Nat.add_comm 1 k]
      simp [List.get?_eq_get hk]
    have h := closest_idx_loop_agrees (fun pc => pallet.get_distance_sq px pc none)
      (fun j => (c0 :: rest).get? j) rest 1 0 (pallet.get_distance_sq px c0 none) c0
      (by simp) hhyp
    simpa [compute.kernelEvenly, pallet.get_closest_color] using h.2

/-- The biased kernel returns, in the biased-first index space, exactly the
color the CPU biased search would pick. -/
theorem kernelBiased_lookup (bp sp : List Rgb) (px : Rgb) (hne : bp ≠ []) :
    compute.lookup_biased bp sp (compute.kernelBiased bp sp px) =
      some (pallet.get_closest_color_biased bp sp px) := by
  match bp with
  | b0 :: brest =>
    have hL0 : compute.lookup_biased (b0 :: brest) sp 0 = some b0 := by
      unfold compute.lookup_biased
      rw [if_neg (by simp)]
      rfl
    have hLb : ∀ k, (hk : k < brest.length) →
        compute.lookup_biased (b0 :: brest) sp (1 + k) = some (brest.get ⟨k, hk⟩) := by
      intro k hk
      unfold compute.lookup_biased
      rw [if_neg (by simp only [List.length_cons]; omega)]
      rw [Nat.add_comm 1 k]
      simp [List.get?_eq_get hk]
    have hLs : ∀ k, (hk : k < sp.length) →
        compute.lookup_biased (b0 :: brest) sp ((brest.length + 1) + k) =
          some (sp.get ⟨k, hk⟩) := by
      intro k hk
      unfold compute.lookup_biased
      rw [if_pos (by simp only [List.length_cons]; omega)]
      have harith : brest.length + 1 + k - (b0 :: brest).length = k := by
        simp
      rw [harith]
      simp [List.get?_eq_get hk]
    have h1 := closest_idx_loop_agrees
      (fun pc => pallet.get_distance_sq px pc (some pallet.standard_bias))
      (compute.lookup_biased (b0 :: brest) sp) brest 1 0
      (pallet.get_distance_sq px b0 (some pallet.standard_bias)) b0 hL0 hLb
    have h2 := closest_idx_loop_agrees
      (fun pc => pallet.get_distance_sq px pc none)
      (compute.lookup_biased (b0 :: brest) sp) sp (brest.length + 1)
      (closest_idx_loop (fun pc => pallet.get_distance_sq px pc (some pallet.standard_bias)) 1
        (pallet.get_distance_sq px b0 (some pallet.standard_bias)) 0 brest).2
      (closest_loop (fun pc => pallet.get_distance_sq px pc (some pallet.standard_bias))
        (pallet.get_distance_sq px b0 (some pallet.standard_bias)) b0 brest).1
      (closest_loop (fun pc => pallet.get_distance_sq px pc (some pallet.standard_bias))
        (pallet.get_distance_sq px b0 (some pallet.standard_bias)) b0 brest).2
      h1.2 hLs
    unfold compute.kernelBiased pallet.get_closest_color_biased
    rw [if_neg (by simp)]
    dsimp only
    rw [h1.1]
    exact h2.2

/-- The fold of `put_pixel` steps in the CPU palletize never changes the
buffer length. -/
theorem palletize_foldl_length (w : ℕ) :
    ∀ (l : List (ℕ × ℕ × Rgb)) (A : List Rgb),
      (l.foldl (fun acc t => acc.set (t.2.1 * w + t.1) t.2.2) A).length = A.length := by
  intro l
  induction l with
  | nil => intro A; rfl
  | cons t ts ih =>
    intro A
    rw [List.foldl_cons, ih, List.length_set]

/-- `getD` commutes with `map` at an in-range index. -/
theorem getD_map (f : Rgb → Rgb) (l : List Rgb) (j : ℕ) (hj : j < l.length) (d d2 : Rgb) :
    (l.map f).getD j d = f (l.getD j d2) := by
  rw [List.getD_eq_getElem _ _ (by simpa using hj), List.getElem_map,
    List.getD_eq_getElem _ _ hj]

/-- The inner coordinate of a row-major index: remainder. -/
theorem rowmajor_mod (w x y : ℕ) (hx : x < w) : (y * w + x) % w = x := by
  rw [Nat.mul_comm, Nat.mul_add_mod, Nat.mod_eq_of_lt hx]

/-- The outer coordinate of a row-major index: quotient. -/
theorem rowmajor_div (w x y : ℕ) (hx : x < w) : (y * w + x) / w = y := by
  rw [Nat.mul_comm, Nat.mul_add_div (by omega) , Nat.div_eq_of_lt hx, Nat.add_zero]

/-- A row-major index of an in-range coordinate pair is within the grid. -/
theorem rowmajor_lt (w h x y : ℕ) (hx : x < w) (hy : y < h) : y * w + x < h * w := by
  calc y * w + x < y * w + w := by omega
  _ = (y + 1) * w := by ring
  _ ≤ h * w := Nat.mul_le_mul_right w (by omega)

/-- The GPU even path equals mapping the CPU nearest-color search over the
row-major pixels (under a nonempty palette), including the fill loop. -/
theorem process_evenly_eq (img : Image) (pl : List Rgb) (hne : pl ≠ [])
    (hwf : img.pixels.length = img.width * img.height) :
    compute.process_evenly img pl =
      some ⟨img.width, img.height,
        img.pixels.map (fun px => pallet.get_closest_color pl px)⟩ := by
  have hmap := lookupAll_map_eq (fun j => pl.get? j) (compute.kernelEvenly pl)
    (fun px => pallet.get_closest_color pl px) img.pixels
    (fun a _ => kernelEvenly_lookup pl a hne)
  unfold compute.process_evenly compute.palletize_evenly compute.translate_evenly
  rw [hmap]
  dsimp only
  rw [if_neg (by simp)]
  dsimp only
  congr 1
  congr 1
  have hfix : (fun (acc : List Rgb) (x : ℕ) =>
      acc.set (x / img.width * img.width + x % img.width)
        ((img.pixels.map (fun px => pallet.get_closest_color pl px)).getD x ⟨0, 0, 0⟩)) =
      (fun (acc : List Rgb) (x : ℕ) =>
        acc.set x ((img.pixels.map (fun px => pallet.get_closest_color pl px)).getD x ⟨0, 0, 0⟩)) := by
    funext acc x
    rw [Nat.div_add_mod']
  rw [hfix]
  have hlen2 : (img.pixels.map (fun px => pallet.get_closest_color pl px)).length =
      img.width * img.height := by
    simp [hwf]
  rw [foldl_set_zero _ _ _ (by simp [hlen2]), map_range_getD,
    List.drop_eq_nil_of_le (by simp [hlen2])]
  simp

/-- The GPU biased path equals mapping the CPU biased search over the
row-major pixels (under a nonempty biased palette), including the fill loop. -/
theorem process_biased_eq (img : Image) (bp sp : List Rgb) (hne : bp ≠ [])
    (hwf : img.pixels.length = img.width * img.height) :
    compute.process_biased img bp sp =
      some ⟨img.width, img.height,
        img.pixels.map (fun px => pallet.get_closest_color_biased bp sp px)⟩ := by
  have hmap := lookupAll_map_eq (compute.lookup_biased bp sp) (compute.kernelBiased bp sp)
    (fun px => pallet.get_closest_color_biased bp sp px) img.pixels
    (fun a _ => kernelBiased_lookup bp sp a hne)
  unfold compute.process_biased compute.palletize_biased compute.translate_biased
  rw [hmap]
  dsimp only
  rw [if_neg (by simp)]
  dsimp only
  congr 1
  congr 1
  have hfix : (fun (acc : List Rgb) (x : ℕ) =>
      acc.set (x / img.width * img.width + x % img.width)
        ((img.pixels.map (fun px => pallet.get_closest_color_biased bp sp px)).getD x ⟨0, 0, 0⟩)) =
      (fun (acc : List Rgb) (x : ℕ) =>
        acc.set x ((img.pixels.map (fun px => pallet.get_closest_color_biased bp sp px)).getD x ⟨0, 0, 0⟩)) := by
    funext acc x
    rw [Nat.div_add_mod']
  rw [hfix]
  have hlen2 : (img.pixels.map (fun px => pallet.get_closest_color_biased bp sp px)).length =
      img.width * img.height := by
    simp [hwf]
  rw [foldl_set_zero _ _ _ (by simp [hlen2]), map_range_getD,
    List.drop_eq_nil_of_le (by simp [hlen2])]
  simp

/-- The CPU palletize output width is the input width. -/
theorem palletize_width (img : Image) (pl : List Rgb) :
    (tooling.palletize img pl).width = img.width := rfl

/-- The pixel buffer produced by the CPU palletize, as a flat enumeration
(positive width). -/
theorem palletize_pixels_eq (img : Image) (pl : List Rgb) (hw : 0 < img.width) :
    (tooling.palletize img pl).pixels =
      (List.range (img.height * img.width)).map
        (fun k => tooling.get_closest_color pl (img.getPixel (k % img.width) (k / img.width))) := by
  unfold tooling.palletize
  dsimp only
  rw [flatMap_range_mul img.width img.height hw
    (fun x y => (x, y, tooling.get_closest_color pl (img.getPixel x y))), List.foldl_map]
  dsimp only
  simp only [Nat.div_add_mod']
  rw [foldl_set_zero
    (fun k => tooling.get_closest_color pl (img.getPixel (k % img.width) (k / img.width)))
    (img.height * img.width) _ (by simp [Nat.mul_comm]),
    List.drop_eq_nil_of_le (by simp [Nat.mul_comm])]
  simp

/-- The CPU palletize emits exactly width × height pixels. -/
theorem palletize_length (img : Image) (pl : List Rgb) :
    (tooling.palletize img pl).pixels.length = img.width * img.height := by
  unfold tooling.palletize
  dsimp only
  rw [palletize_foldl_length img.width]
  simp

/-- The CPU palletize writes the nearest color of input pixel (x, y) exactly
at output position (x, y). -/
theorem palletize_getPixel (img : Image) (pl : List Rgb) (x y : ℕ)
    (hx : x < img.width) (hy : y < img.height) :
    (tooling.palletize img pl).getPixel x y =
      tooling.get_closest_color pl (img.getPixel x y) := by
  have hw : 0 < img.width := by omega
  unfold Image.getPixel
  rw [palletize_width, palletize_pixels_eq img pl hw,
    getD_map_range _ _ _ (rowmajor_lt _ _ _ _ hx hy),
    rowmajor_mod _ _ _ hx, rowmajor_div _ _ _ hx]
  rfl

/-- C1: for every well-formed input image and every nonempty palette (and
nonempty biased palette on the biased path), each palettization strategy —
`process_evenly` and `process_biased` on the GPU path (kernel modelled from
the spec; index translation, integrity check and fill loop from compute.rs),
and `tooling::pallet::palletize` on the CPU path — produces exactly
width × height pixels, and the output pixel at (x, y) is the nearest-color
replacement of the input pixel at (x, y) under the respective search; a
shader-result count differing from the pixel count is rejected by the
integrity check (`none`, the modelled panic) rather than silently tolerated. -/
theorem C1_palettization_preserves_layout (img : Image)
    (pallet_colors biased_pallet standard_pallet : List Rgb)
    (hwf : img.pixels.length = img.width * img.height)
    (hp : pallet_colors ≠ []) (hb : biased_pallet ≠ []) :
    (∃ out, compute.process_evenly img pallet_colors = some out ∧
      out.width = img.width ∧ out.height = img.height ∧
      out.pixels.length = img.width * img.height ∧
      ∀ x y, x < img.width → y < img.height →
        out.getPixel x y = pallet.get_closest_color pallet_colors (img.getPixel x y)) ∧
    (∃ out, compute.process_biased img biased_pallet standard_pallet = some out ∧
      out.width = img.width ∧ out.height = img.height ∧
      out.pixels.length = img.width * img.height ∧
      ∀ x y, x < img.width → y < img.height →
        out.getPixel x y =
          pallet.get_closest_color_biased biased_pallet standard_pallet (img.getPixel x y)) ∧
    ((tooling.palletize img pallet_colors).pixels.length = img.width * img.height ∧
      ∀ x y, x < img.width → y < img.height →
        (tooling.palletize img pallet_colors).getPixel x y =
          tooling.get_closest_color pallet_colors (img.getPixel x y)) ∧
    (∀ results : List ℕ, results.length ≠ img.pixels.length →
      compute.translate_evenly img.pixels pallet_colors results = none ∧
      compute.translate_biased img.pixels biased_pallet standard_pallet results = none) := by
  refine ⟨?_, ?_, ⟨palletize_length img pallet_colors, ?_⟩, ?_⟩
  · refine ⟨_, process_evenly_eq img pallet_colors hp hwf, rfl, rfl, by simp [hwf], ?_⟩
    intro x y hx hy
    unfold Image.getPixel
    dsimp only
    have hidx : y * img.width + x < img.pixels.length := by
      rw [hwf, Nat.mul_comm img.width img.height]
      exact rowmajor_lt _ _ _ _ hx hy
    exact getD_map _ img.pixels _ hidx _ _
  · refine ⟨_, process_biased_eq img biased_pallet standard_pallet hb hwf, rfl, rfl,
      by simp [hwf], ?_⟩
    intro x y hx hy
    unfold Image.getPixel
    dsimp only
    have hidx : y * img.width + x < img.pixels.length := by
      rw [hwf, Nat.mul_comm img.width img.height]
      exact rowmajor_lt _ _ _ _ hx hy
    exact getD_map _ img.pixels _ hidx _ _
  · intro x y hx hy
    exact palletize_getPixel img pallet_colors x y hx hy
  · intro results hlen
    exact ⟨translate_evenly_mismatch _ _ _ hlen, translate_biased_mismatch _ _ _ _ hlen⟩

/-- C1 witness: a concrete 2 × 1 image with a one-color palette on each path. -/
theorem C1_palettization_preserves_layout_witness :
    ((Image.mk 2 1 [⟨0, 0, 0⟩, ⟨255, 255, 255⟩]).pixels.length = 2 * 1 ∧
      ([(⟨3, 3, 3⟩ : Rgb)] ≠ []) ∧ ([(⟨7, 7, 7⟩ : Rgb)] ≠ [])) ∧
    ((∃ out, compute.process_evenly (Image.mk 2 1 [⟨0, 0, 0⟩, ⟨255, 255, 255⟩]) [(⟨3, 3, 3⟩ : Rgb)] = some out ∧
      out.width = (Image.mk 2 1 [⟨0, 0, 0⟩, ⟨255, 255, 255⟩]).width ∧
      out.height = (Image.mk 2 1 [⟨0, 0, 0⟩, ⟨255, 255, 255⟩]).height ∧
      out.pixels.length = (Image.mk 2 1 [⟨0, 0, 0⟩, ⟨255, 255, 255⟩]).width * (Image.mk 2 1 [⟨0, 0, 0⟩, ⟨255, 255, 255⟩]).height ∧
      ∀ x y, x < (Image.mk 2 1 [⟨0, 0, 0⟩, ⟨255, 255, 255⟩]).width →
        y < (Image.mk 2 1 [⟨0, 0, 0⟩, ⟨255, 255, 255⟩]).height →
        out.getPixel x y = pallet.get_closest_color [(⟨3, 3, 3⟩ : Rgb)]
          ((Image.mk 2 1 [⟨0, 0, 0⟩, ⟨255, 255, 255⟩]).getPixel x y)) ∧
    (∃ out, compute.process_biased (Image.mk 2 1 [⟨0, 0, 0⟩, ⟨255, 255, 255⟩]) [(⟨7, 7, 7⟩ : Rgb)] [] = some out ∧
      out.width = (Image.mk 2 1 [⟨0, 0, 0⟩, ⟨255, 255, 255⟩]).width ∧
      out.height = (Image.mk 2 1 [⟨0, 0, 0⟩, ⟨255, 255, 255⟩]).height ∧
      out.pixels.length = (Image.mk 2 1 [⟨0, 0, 0⟩, ⟨255, 255, 255⟩]).width * (Image.mk 2 1 [⟨0, 0, 0⟩, ⟨255, 255, 255⟩]).height ∧
      ∀ x y, x < (Image.mk 2 1 [⟨0, 0, 0⟩, ⟨255, 255, 255⟩]).width →
        y < (Image.mk 2 1 [⟨0, 0, 0⟩, ⟨255, 255, 255⟩]).height →
        out.getPixel x y = pallet.get_closest_color_biased [(⟨7, 7, 7⟩ : Rgb)] []
          ((Image.mk 2 1 [⟨0, 0, 0⟩, ⟨255, 255, 255⟩]).getPixel x y)) ∧
    ((tooling.palletize (Image.mk 2 1 [⟨0, 0, 0⟩, ⟨255, 255, 255⟩]) [(⟨3, 3, 3⟩ : Rgb)]).pixels.length =
      (Image.mk 2 1 [⟨0, 0, 0⟩, ⟨255, 255, 255⟩]).width * (Image.mk 2 1 [⟨0, 0, 0⟩, ⟨255, 255, 255⟩]).height ∧
      ∀ x y, x < (Image.mk 2 1 [⟨0, 0, 0⟩, ⟨255, 255, 255⟩]).width →
        y < (Image.mk 2 1 [⟨0, 0, 0⟩, ⟨255, 255, 255⟩]).height →
        (tooling.palletize (Image.mk 2 1 [⟨0, 0, 0⟩, ⟨255, 255, 255⟩]) [(⟨3, 3, 3⟩ : Rgb)]).getPixel x y =
          tooling.get_closest_color [(⟨3, 3, 3⟩ : Rgb)]
            ((Image.mk 2 1 [⟨0, 0, 0⟩, ⟨255, 255, 255⟩]).getPixel x y)) ∧
    (∀ results : List ℕ,
      results.length ≠ (Image.mk 2 1 [⟨0, 0, 0⟩, ⟨255, 255, 255⟩]).pixels.length →
      compute.translate_evenly (Image.mk 2 1 [⟨0, 0, 0⟩, ⟨255, 255, 255⟩]).pixels [(⟨3, 3, 3⟩ : Rgb)] results = none ∧
      compute.translate_biased (Image.mk 2 1 [⟨0, 0, 0⟩, ⟨255, 255, 255⟩]).pixels [(⟨7, 7, 7⟩ : Rgb)] [] results = none)) :=
  ⟨⟨by decide, by decide, by decide⟩,
    C1_palettization_preserves_layout (Image.mk 2 1 [⟨0, 0, 0⟩, ⟨255, 255, 255⟩])
      [(⟨3, 3, 3⟩ : Rgb)] [(⟨7, 7, 7⟩ : Rgb)] [] (by decide) (by decide) (by decide)⟩

/-- The condensation pass loop only ever returns palettes within the ceiling. -/
theorem condense_go_le :
    ∀ (fuel bucketWidth : ℕ) (cur : List Rgb) (ceiling : ℕ) (Q : List Rgb),
      condense_go fuel bucketWidth cur ceiling = some Q → Q.length ≤ ceiling := by
  intro fuel
  induction fuel with
  | zero =>
    intro w cur ceiling Q h
    simp [condense_go] at h
  | succ fuel ih =>
    intro w cur ceiling Q h
    rw [condense_go] at h
    by_cases hle : (remove_duplicates_ordered (cur.map (quantize w))).length ≤ ceiling
    · rw [if_pos hle] at h
      injection h with h
      rw [← h]
      exact hle
    · rw [if_neg hle] at h
      exact ih _ _ _ _ h

/-- C2: for every palette P and every ceiling C ≥ 1, whenever the (spec
modelled) condensation returns a palette, its size is at most C; running out
of passes is the fatal error, never an oversized result. -/
theorem C2_condense_ceiling (P : List Rgb) (C : ℕ) (hC : 1 ≤ C) (Q : List Rgb)
    (h : condense_color_pallet P C = some Q) : Q.length ≤ C := by
  unfold condense_color_pallet at h
  by_cases hle : (remove_duplicates_ordered P).length ≤ C
  · rw [if_pos hle] at h
    injection h with h
    rw [← h]
    exact hle
  · rw [if_neg hle] at h
    exact condense_go_le _ _ _ _ _ h

/-- C2 witness: a two-color palette condensed to a ceiling of 1. -/
theorem C2_condense_ceiling_witness :
    (1 ≤ 1 ∧
      condense_color_pallet [(⟨0, 0, 0⟩ : Rgb), ⟨1, 1, 1⟩] 1 = some [(⟨1, 1, 1⟩ : Rgb)]) ∧
    ([(⟨1, 1, 1⟩ : Rgb)]).length ≤ 1 :=
  ⟨⟨by decide, by decide⟩,
    C2_condense_ceiling [(⟨0, 0, 0⟩ : Rgb), ⟨1, 1, 1⟩] 1 (by decide) [(⟨1, 1, 1⟩ : Rgb)] (by decide)⟩

/-- C3 counterexample: the claim requires the metric used by the CPU
palettization strategy (tooling.rs `get_distance_score`) to be the weighted
distance sqrt(Σ (weight · |difference| / bias)²).  At colors (1,0,0) and
(0,0,0) the claimed distance is exactly 299/1000 (the radicand is its square),
but the tooling score differs, and the two metrics even disagree about which
palette color is nearest to (0,0,0) in the palette [(10,0,0), (0,0,10)]. -/
theorem C3_distance_metric_counterexample :
    tooling.get_distance_score ⟨1, 0, 0⟩ ⟨0, 0, 0⟩ ≠ (299 / 1000 : ℚ) ∧
    ((299 / 1000 : ℚ)) ^ 2 = spec_distance_sq ⟨1, 0, 0⟩ ⟨0, 0, 0⟩ none ∧
    tooling.get_closest_color [⟨10, 0, 0⟩, ⟨0, 0, 10⟩] ⟨0, 0, 0⟩ ≠
      pallet.get_closest_color [⟨10, 0, 0⟩, ⟨0, 0, 10⟩] ⟨0, 0, 0⟩ := by
  refine ⟨?_, ?_, ?_⟩
  · norm_num [tooling.get_distance_score, Rgb.rq, Rgb.gq, Rgb.bq,
      show ((1 : Fin 256)).val = 1 from rfl, show ((0 : Fin 256)).val = 0 from rfl]
  · norm_num [spec_distance_sq, Rgb.rq, Rgb.gq, Rgb.bq,
      show ((1 : Fin 256)).val = 1 from rfl, show ((0 : Fin 256)).val = 0 from rfl]
  · have h1 : tooling.get_closest_color [⟨10, 0, 0⟩, ⟨0, 0, 10⟩] ⟨0, 0, 0⟩ = ⟨10, 0, 0⟩ := by
      norm_num [tooling.get_closest_color, tooling.get_closest_color_go,
        tooling.get_distance_score, Rgb.rq, Rgb.gq, Rgb.bq,
        show ((10 : Fin 256)).val = 10 from rfl, show ((0 : Fin 256)).val = 0 from rfl]
    have h2 : pallet.get_closest_color [⟨10, 0, 0⟩, ⟨0, 0, 10⟩] ⟨0, 0, 0⟩ = ⟨0, 0, 10⟩ := by
      norm_num [pallet.get_closest_color, closest_loop, pallet.get_distance_sq,
        Rgb.rq, Rgb.gq, Rgb.bq,
        show ((10 : Fin 256)).val = 10 from rfl, show ((0 : Fin 256)).val = 0 from rfl]
    rw [h1, h2]
    decide

/-- C3 amended: pallet.rs `get_distance` does implement the claimed formula
(radicands agree with the specification formula for every pair of colors and
every bias, and the source applies the same final square root to both), and it
is the metric of `get_closest_color` and `get_closest_color_biased`; but the
CPU palettization path in tooling.rs uses `get_distance_score`, which DIVIDES
the absolute channel difference by the luma weights and omits both the bias
and the square root. -/
theorem C3_distance_metric_amended :
    (∀ (a b : Rgb) (bias : Option ℚ),
      pallet.get_distance_sq a b bias = spec_distance_sq a b bias) ∧
    (∀ (a b : Rgb),
      tooling.get_distance_score a b =
        (|a.rq - b.rq| / (299 / 1000)) ^ 2 + (|a.gq - b.gq| / (587 / 1000)) ^ 2 +
          (|a.bq - b.bq| / (114 / 1000)) ^ 2) := by
  constructor
  · intro a b bias
    simp only [pallet.get_distance_sq, spec_distance_sq]
    ring
  · intro a b
    rfl

/-- C4 counterexample: the source trims EVERY leading `#`
(`trim_start_matches`), so `"##fff"` validates, while the claimed reading
(one optional leading `#`) rejects it. -/
theorem C4_is_hex_counterexample :
    pallet.is_hex "##fff" = true ∧ spec_is_hex "##fff" = false := by
  decide

/-- C4 amended: `is_hex` accepts exactly the strings whose remainder after
removing ALL leading `#` characters has length 3, 6 or 8 and consists of
ASCII hex digits; the concrete examples of the claim all hold. -/
theorem C4_is_hex_amended :
    (∀ code : String, pallet.is_hex code = true ↔
      (((code.data.dropWhile (fun c => c = '#')).length = 3 ∨
        (code.data.dropWhile (fun c => c = '#')).length = 6 ∨
        (code.data.dropWhile (fun c => c = '#')).length = 8) ∧
       ∀ c ∈ code.data.dropWhile (fun c => c = '#'), pallet.is_ascii_hexdigit c = true)) ∧
    pallet.is_hex "fff" = true ∧ pallet.is_hex "ffffff" = true ∧
    pallet.is_hex "ffffffff" = true ∧ pallet.is_hex "ff" = false ∧
    pallet.is_hex "gggggg" = false ∧ pallet.is_hex "#12" = false := by
  refine ⟨?_, by decide, by decide, by decide, by decide, by decide, by decide⟩
  intro code
  simp [pallet.is_hex, List.all_eq_true, Bool.and_eq_true, Bool.or_eq_true, beq_iff_eq]
  tauto

/-- Chunking with a positive size partitions the list. -/
theorem chunksOf_flatten (n : ℕ) (hn : 0 < n) (l : List Rgb) :
    (chunksOf n l).flatten = l := by
  have H : ∀ (m : ℕ) (l : List Rgb), l.length ≤ m → (chunksOf n l).flatten = l := by
    intro m
    induction m with
    | zero =>
      intro l hl
      have hnil : l = [] := List.eq_nil_of_length_eq_zero (by omega)
      subst hnil
      rw [chunksOf]
      split <;> simp
    | succ m ih =>
      intro l hl
      rw [chunksOf]
      split
      · omega
      · split
        · simp [*]
        · rename_i hne hl2
          rw [List.flatten_cons, ih (l.drop n) ?hdrop]
          · exact List.take_append_drop n l
          case hdrop =>
            have hpos : 0 < l.length := List.length_pos.mpr hl2
            simp only [List.length_drop]
            omega
  exact H l.length l le_rfl

/-- A chunk of accent-free pixels grows no region. -/
theorem grow_regions_nil (chunk : List Rgb)
    (h : ∀ p ∈ chunk, pallet.is_accent_color p = false) :
    pallet.grow_regions chunk = [] := by
  unfold pallet.grow_regions
  rw [List.filter_eq_nil_iff.mpr (by intro a ha; simp [h a ha])]
  rfl

/-- C8: an image with no candidate accent pixel makes `get_accent_color`
return the image average color (for any positive worker count not exceeding
the pixel count, so the chunk size is positive). -/
theorem C8_accent_fallback (chunk_count : ℕ) (img : Image)
    (hcc : 0 < chunk_count) (hsize : chunk_count ≤ img.pixels.length)
    (hnone : ∀ p ∈ img.pixels, pallet.is_accent_color p = false) :
    pallet.get_accent_color chunk_count img = pallet.get_average_color_from_image img := by
  have hppc : 0 < img.pixels.length / chunk_count := Nat.div_pos hsize hcc
  unfold pallet.get_accent_color
  dsimp only
  have hflat : (chunksOf (img.pixels.length / chunk_count) img.pixels).flatMap
      pallet.grow_regions = [] := by
    rw [List.flatMap_eq_nil_iff]
    intro c hc
    apply grow_regions_nil
    intro p hp
    apply hnone
    rw [← chunksOf_flatten (img.pixels.length / chunk_count) hppc img.pixels]
    exact List.mem_flatten.mpr ⟨c, hc, hp⟩
  rw [hflat]
  rfl

/-- C8 witness: a 1 × 1 all-gray image with one worker. -/
theorem C8_accent_fallback_witness :
    (0 < 1 ∧ 1 ≤ (Image.mk 1 1 [⟨100, 100, 100⟩]).pixels.length ∧
      ∀ p ∈ (Image.mk 1 1 [⟨100, 100, 100⟩]).pixels, pallet.is_accent_color p = false) ∧
    pallet.get_accent_color 1 (Image.mk 1 1 [⟨100, 100, 100⟩]) =
      pallet.get_average_color_from_image (Image.mk 1 1 [⟨100, 100, 100⟩]) := by
  have haux : pallet.is_accent_color ⟨100, 100, 100⟩ = false := by
    unfold pallet.is_accent_color pallet.perceived_greyscale
    norm_num [pallet.get_distance_sq, Rgb.rq, Rgb.gq, Rgb.bq,
      pallet.color_region_differentiation, pallet.accent_color_multiplier, clampU8,
      show ((100 : Fin 256)).val = 100 from rfl, show ((100 : ℤ)).toNat = 100 from rfl]
  have hnone : ∀ p ∈ (Image.mk 1 1 [⟨100, 100, 100⟩]).pixels,
      pallet.is_accent_color p = false := by
    intro p hp
    simp only [List.mem_singleton] at hp
    rw [hp]
    exact haux
  exact ⟨⟨by decide, by decide, hnone⟩,
    C8_accent_fallback 1 (Image.mk 1 1 [⟨100, 100, 100⟩]) (by decide) (by decide) hnone⟩

end Oxide
